import Mathlib

/-
Verification of the struct/union/typedef code-generation stage of the
windows-rs metadata compiler (crates/gen/src/struct.rs).

The file embeds the model-building function `Struct::from_type_name` and the
emitter `Struct::gen` as Lean functions.  External collaborators (the metadata
reader, the type resolver, GUID parsing, token emission) are out of scope per
the specification and appear as abstract data carried by the input records.
-/

set_option linter.unusedVariables false

namespace Winmd

/-- Modelled from the spec: `TypeGuid` is a 128-bit identity value with a
well-defined absent sentinel (`TypeGuid::default()`), equality-comparable.
We represent the payload abstractly; `none` is the absent sentinel. -/
structure TypeGuid where
  value : Option String
deriving DecidableEq

/-- The absent sentinel, `TypeGuid::default()` in the source. -/
def TypeGuid.default : TypeGuid := ⟨none⟩

/-- Modelled from the spec: the tagged `SemanticType` kind produced by the
external type resolver.  The embedding distinguishes the 1-byte primitive kind
(used for the empty-struct padding in `Struct::from_type_name`), the
callback/delegate reference (`TypeKind::Delegate`, carrying whether the target
definition is a WinRT type, queried through `name.def.is_winrt()`), and an
abstract remainder.  Blittability is the external `is_blittable` query and is
carried as data. -/
inductive TypeKind where
  | u8
  | delegate (winrt : Bool) (blittable : Bool)
  | other (blittable : Bool)
deriving DecidableEq

/-- The external `is_blittable` query on a semantic type kind.  The 1-byte
primitive is blittable; for the abstract kinds the answer is the carried
oracle bit. -/
def TypeKind.is_blittable : TypeKind → Bool
  | .u8 => true
  | .delegate _ b => b
  | .other b => b

/-- The source `Type` struct (the resolved semantic type of a field).  The
name `Type` is reserved in Lean, hence `Ty`.  The fields mirror the struct
literal built at struct.rs lines 90-101; only `kind` and `pointers` are
inspected by the code under verification, the rest are carried abstractly. -/
structure Ty where
  kind : TypeKind
  pointers : Nat
  array : Option Nat
  by_ref : Bool
  modifiers : List String
  param : Option String
  name : String
  is_const : Bool
  is_array : Bool
  is_input : Bool
deriving DecidableEq

/-- Modelled from the spec: a literal value paired with its declared type,
produced by `ConstantValue::new` for literal fields.  Represented abstractly
by its rendered form. -/
structure ConstantValue where
  value : String
deriving DecidableEq

/-- A metadata field record, as exposed by the external reader: `name()`,
`flags().literal()`, `constant()`, and the resolver output `Type::from_field`
(external, spec section 6) carried as `ftype`. -/
structure FieldDef where
  name : String
  literal : Bool
  constant : Option ConstantValue
  ftype : Ty
deriving DecidableEq

/-- A metadata type definition (`winmd::TypeDef`) at the interface the core
consumes: its metadata name, `is_winrt()`, `flags().explicit()`, the
`NativeTypedefAttribute` marker, the WinRT structural signature
(`TypeName::struct_signature`, external), the parsed identity GUID
(`TypeGuid::from_type_def`, external), the ordered field records and the
ordered nested type definitions. -/
structure TypeDef where
  name : String
  winrt : Bool
  explicit_layout : Bool
  typedefAttr : Bool
  struct_signature : String
  guid : TypeGuid
  fields : List FieldDef
  nested_types : List TypeDef

/-- The source `TypeName`: a type definition handle plus its namespace and the
(possibly synthetic) name used for emission.  The source field `def` is a
reserved word in Lean, hence `tdef`; likewise `namespace` becomes `namespc`. -/
structure TypeName where
  tdef : TypeDef
  namespc : String
  name : String

/-- Modelled from the spec: the external transliteration `to_snake` maps a
metadata field name to its conventional lowercase form.  Its definition is
out of scope; the embedding takes field names as already transliterated. -/
def to_snake (s : String) : String := s

/-- Sorted-association-list model of `std::collections::BTreeMap` insertion:
keys are kept in strictly increasing order, and inserting an existing key
replaces its value. -/
def btreeInsert {β : Type} (k : String) (v : β) :
    List (String × β) → List (String × β)
  | [] => [(k, v)]
  | (k', v') :: rest =>
    if k < k' then (k, v) :: (k', v') :: rest
    else if k = k' then (k, v) :: rest
    else (k', v') :: btreeInsert k v rest

/-- Sorted-list model of `std::collections::BTreeSet` insertion: the returned
Bool is the `insert` return value, true exactly when the element was newly
inserted. -/
def btreeSetInsert (x : String) : List String → Bool × List String
  | [] => (true, [x])
  | y :: rest =>
    if x < y then (true, x :: y :: rest)
    else if x = y then (false, y :: rest)
    else
      let p := btreeSetInsert x rest
      (p.1, y :: p.2)

/-- The structural model built by `Struct::from_type_name` (struct.rs lines
5-14).  `nested` is the BTreeMap from original metadata nested-type name to
child model, represented as a key-sorted association list. -/
structure Struct where
  name : TypeName
  fields : List (String × Ty)
  constants : List (String × ConstantValue)
  signature : String
  is_typedef : Bool
  guid : TypeGuid
  nested : List (String × Struct)

theorem TypeDef.sizeOf_nested_types_lt (t : TypeDef) : sizeOf t.nested_types < sizeOf t := by
  cases t
  simp

theorem Struct.sizeOf_nested_lt (s : Struct) : sizeOf s.nested < sizeOf s := by
  cases s
  simp

/-- The collision loop of struct.rs lines 67-80: starting at suffix 2, try
`base ++ repr count` until the set insertion succeeds.  The loop is modelled
with explicit fuel; `uniquify_fuel_sufficient` below shows the fuel chosen at
the call site is never exhausted. -/
def uniquifyAux (base : String) (unique : List String) : Nat → Nat → String × List String
  | 0, count =>
    let nm := base ++ Nat.repr count
    (nm, (btreeSetInsert nm unique).2)
  | fuel + 1, count =>
    let nm := base ++ Nat.repr count
    let p := btreeSetInsert nm unique
    if p.1 then (nm, p.2) else uniquifyAux base unique fuel (count + 1)

/-- The field classification loop of struct.rs lines 50-84: literal fields
with a constant go to `constants`, literal fields without a constant are
dropped, other fields get the resolver output with the delegate pointer-depth
workaround (lines 58-61) and a deduplicated snake-case identifier
(lines 63-80).  The loop state (fields, constants, unique) is threaded
explicitly and returned. -/
def Struct.classify (fields : List (String × Ty))
    (constants : List (String × ConstantValue)) (unique : List String) :
    List FieldDef → List (String × Ty) × List (String × ConstantValue) × List String
  | [] => (fields, constants, unique)
  | field :: rest =>
    if field.literal then
      match field.constant with
      | some c => Struct.classify fields (constants ++ [(field.name, c)]) unique rest
      | none => Struct.classify fields constants unique rest
    else
      let t := field.ftype
      let t := match t.kind with
        | TypeKind.delegate _ _ => { t with pointers := 0 }
        | _ => t
      let field_name := to_snake field.name
      let p := btreeSetInsert field_name unique
      let r := if p.1 then (field_name, p.2)
        else uniquifyAux field_name unique (unique.length + 1) 2
      Struct.classify (fields ++ [(r.1, t)]) constants r.2 rest

mutual

/-- The model builder `Struct::from_type_name` (struct.rs lines 17-119).
Nested anonymous definitions are materialized recursively with synthetic
names `parent_index` and inserted keyed by original metadata name; fields are
classified and deduplicated; an empty unpadded non-GUID model receives the
synthetic 1-byte `reserved` field (lines 88-104). -/
def Struct.from_type_name (name : TypeName) : Struct :=
  let is_winrt := name.tdef.winrt
  let signature := if is_winrt then name.tdef.struct_signature else ""
  let nested := Struct.buildNested name.name name.namespc [] name.tdef.nested_types
  let r := Struct.classify [] [] [] name.tdef.fields
  let fields := r.1
  let constants := r.2.1
  let guid := name.tdef.guid
  let fields :=
    if fields.isEmpty && (guid = TypeGuid.default) then
      fields ++ [("reserved",
        { kind := TypeKind.u8, pointers := 0, array := none, by_ref := false,
          modifiers := [], param := none, name := "", is_const := false,
          is_array := false, is_input := false })]
    else fields
  let is_typedef := name.tdef.typedefAttr
  { name := name, fields := fields, constants := constants,
    signature := signature, is_typedef := is_typedef, guid := guid,
    nested := nested }
termination_by sizeOf name.tdef
decreasing_by
exact TypeDef.sizeOf_nested_types_lt name.tdef

/-- The nested-type loop of struct.rs lines 29-44: each nested definition is
given the synthetic name `parent ++ "_" ++ repr (map size so far)` and its
model is inserted into the BTreeMap keyed by the original metadata name. -/
def Struct.buildNested (parent ns : String) (acc : List (String × Struct)) :
    List TypeDef → List (String × Struct)
  | [] => acc
  | d :: rest =>
    let def_name : TypeName := ⟨d, ns, parent ++ "_" ++ Nat.repr acc.length⟩
    Struct.buildNested parent ns
      (btreeInsert d.name (Struct.from_type_name def_name) acc) rest
termination_by l => sizeOf l
decreasing_by
· simp
  omega
· simp

end

/-- Aggregate body shape: positional (typedef case, struct.rs lines 147-157)
or named (lines 158-170).  The token rendering `gen_field` of each field type
is external and is represented by the semantic type itself. -/
inductive Body where
  | tuple (fields : List Ty)
  | named (fields : List (String × Ty))

/-- Default-construction body: positional `Self(...)` (struct.rs lines
172-182) or named `Self{...}` (lines 183-195).  The external per-type default
expression `gen_default` is represented by the semantic type itself. -/
inductive DefaultsBody where
  | tuple (values : List Ty)
  | named (values : List (String × Ty))

/-- One comparison in the generated `PartialEq` body (struct.rs lines
232-262): raw function-address comparison through the named accessor for a
non-WinRT delegate field, positional comparison for a typedef field, named
comparison otherwise. -/
inductive CmpField where
  | addr (ident : String)
  | byIndex (index : Nat)
  | byName (ident : String)
deriving DecidableEq

/-- One entry of the generated `Debug` body (struct.rs lines 197-221): the
label is the field-name string passed to `.field`, the accessor is positional
in the typedef case and named otherwise. -/
inductive DbgField where
  | byIndex (label : String) (index : Nat)
  | byName (label : String) (ident : String)
deriving DecidableEq

/-- The label string of a debug entry. -/
def DbgField.label : DbgField → String
  | .byIndex l _ => l
  | .byName l _ => l

/-- One emitted declaration.  `Struct::gen` returns a token stream that is a
sequence of such declarations; each carries the `TypeName` it is emitted for
(the source renders it through `name.gen()` / `format_ident`). -/
inductive Decl where
  | constGuid (owner : TypeName) (guid : TypeGuid)
  | aggregate (owner : TypeName) (isUnion : Bool) (body : Body)
  | abiShadow (owner : TypeName) (abiFields : List Ty)
  | constImpl (owner : TypeName) (constants : List (String × ConstantValue))
  | abiImpl (owner : TypeName)
  | defaultImpl (owner : TypeName) (body : DefaultsBody)
  | debugImpl (owner : TypeName) (debugName : String) (fields : List DbgField)
  | partialEqImpl (owner : TypeName) (cmp : List CmpField)
  | eqImpl (owner : TypeName)
  | copyImpl (owner : TypeName)
  | runtimeTypeImpl (owner : TypeName) (signature : String)

/-- The `TypeName` a declaration is emitted for. -/
def Decl.owner : Decl → TypeName
  | .constGuid n _ => n
  | .aggregate n _ _ => n
  | .abiShadow n _ => n
  | .constImpl n _ => n
  | .abiImpl n => n
  | .defaultImpl n _ => n
  | .debugImpl n _ _ => n
  | .partialEqImpl n _ => n
  | .eqImpl n => n
  | .copyImpl n => n
  | .runtimeTypeImpl n _ => n

/-- The test `if let TypeKind::Delegate(name) = kind { !name.def.is_winrt() }`
used by the debug and comparison generators (struct.rs lines 202-206 and
238-243). -/
def isNonWinrtDelegate : TypeKind → Bool
  | .delegate winrt _ => !winrt
  | _ => false

/-- The `debug_fields` iterator of struct.rs lines 197-221: non-WinRT delegate
fields are omitted; remaining fields are listed with their name as label and
a positional accessor in the typedef case, a named accessor otherwise. -/
def Struct.debug_fields (s : Struct) : List DbgField :=
  s.fields.enum.filterMap fun p =>
    if isNonWinrtDelegate p.2.2.kind then none
    else if s.is_typedef then some (DbgField.byIndex p.2.1 p.1)
    else some (DbgField.byName p.2.1 p.2.1)

/-- The `compare_fields` body of struct.rs lines 232-262: the empty field list
compares as the literal `true` (encoded as the empty comparison list);
otherwise each field is compared by raw address for non-WinRT delegates, by
position for typedefs, and by name otherwise. -/
def Struct.compare_fields (s : Struct) : List CmpField :=
  if s.fields.isEmpty then []
  else s.fields.enum.map fun p =>
    if isNonWinrtDelegate p.2.2.kind then CmpField.addr p.2.1
    else if s.is_typedef then CmpField.byIndex p.1
    else CmpField.byName p.2.1

/-- The `abi` iterator of struct.rs line 264; the external `gen_abi` rendering
is represented by the semantic type itself. -/
def Struct.abi (s : Struct) : List Ty :=
  s.fields.map fun f => f.2

/-- The `copy` token of struct.rs lines 281-287: the `Copy` marker impl when
every field kind is blittable, nothing otherwise. -/
def Struct.copy (s : Struct) : List Decl :=
  if s.fields.all (fun f => f.2.kind.is_blittable) then [Decl.copyImpl s.name]
  else []

/-- The `runtime_type` token of struct.rs lines 266-277: a `RuntimeType` impl
when the signature is non-empty, nothing otherwise. -/
def Struct.runtime_type (s : Struct) : List Decl :=
  if s.signature.isEmpty then [] else [Decl.runtimeTypeImpl s.name s.signature]

mutual

/-- The emitter `Struct::gen` (struct.rs lines 133-358).  A present GUID
short-circuits to a single constant (lines 136-142); explicit layout emits a
union with nested models and the copy token (lines 293-301); implicit layout
with an explicitly laid out direct child emits the aggregate, constants and
nested models plus the copy token (lines 303-318); otherwise the full shape
is emitted (lines 319-356). -/
def Struct.gen (s : Struct) : List Decl :=
  if s.guid ≠ TypeGuid.default then
    [Decl.constGuid s.name s.guid]
  else
    let body := if s.is_typedef then Body.tuple (s.fields.map fun f => f.2)
      else Body.named s.fields
    let defaults := if s.is_typedef then DefaultsBody.tuple (s.fields.map fun f => f.2)
      else DefaultsBody.named s.fields
    let nested := Struct.genNested s.nested
    if s.name.tdef.explicit_layout then
      Decl.aggregate s.name true body :: (nested ++ s.copy)
    else if s.nested.any (fun kv => kv.2.name.tdef.explicit_layout) then
      Decl.aggregate s.name false body :: Decl.constImpl s.name s.constants ::
        (nested ++ s.copy)
    else
      Decl.aggregate s.name false body :: Decl.abiShadow s.name s.abi ::
        Decl.constImpl s.name s.constants :: Decl.abiImpl s.name ::
        Decl.defaultImpl s.name defaults ::
        Decl.debugImpl s.name s.name.name s.debug_fields ::
        Decl.partialEqImpl s.name s.compare_fields :: Decl.eqImpl s.name ::
        (s.copy ++ s.runtime_type ++ nested)
termination_by sizeOf s
decreasing_by
exact Struct.sizeOf_nested_lt s

/-- The splice `#(#nested)*` of the recursively generated nested models. -/
def Struct.genNested : List (String × Struct) → List Decl
  | [] => []
  | kv :: rest => Struct.gen kv.2 ++ Struct.genNested rest
termination_by l => sizeOf l
decreasing_by
· rcases kv with ⟨k, v⟩
  simp
  omega
· simp

end

/-! Projection lemmas for the built model. -/

@[simp] theorem Struct.from_type_name_name (tn : TypeName) :
    (Struct.from_type_name tn).name = tn := by
  rw [Struct.from_type_name]

@[simp] theorem Struct.from_type_name_guid (tn : TypeName) :
    (Struct.from_type_name tn).guid = tn.tdef.guid := by
  rw [Struct.from_type_name]

@[simp] theorem Struct.from_type_name_is_typedef (tn : TypeName) :
    (Struct.from_type_name tn).is_typedef = tn.tdef.typedefAttr := by
  rw [Struct.from_type_name]

@[simp] theorem Struct.from_type_name_constants (tn : TypeName) :
    (Struct.from_type_name tn).constants = (Struct.classify [] [] [] tn.tdef.fields).2.1 := by
  rw [Struct.from_type_name]

@[simp] theorem Struct.from_type_name_nested (tn : TypeName) :
    (Struct.from_type_name tn).nested =
      Struct.buildNested tn.name tn.namespc [] tn.tdef.nested_types := by
  rw [Struct.from_type_name]

theorem Struct.from_type_name_fields (tn : TypeName) :
    (Struct.from_type_name tn).fields =
      (if (Struct.classify [] [] [] tn.tdef.fields).1.isEmpty &&
          (tn.tdef.guid = TypeGuid.default) then
        (Struct.classify [] [] [] tn.tdef.fields).1 ++ [("reserved",
          { kind := TypeKind.u8, pointers := 0, array := none, by_ref := false,
            modifiers := [], param := none, name := "", is_const := false,
            is_array := false, is_input := false })]
      else (Struct.classify [] [] [] tn.tdef.fields).1) := by
  rw [Struct.from_type_name]

/-! Lemmas about the BTreeSet model. -/

theorem mem_btreeSetInsert {x a : String} :
    ∀ {l : List String}, a ∈ (btreeSetInsert x l).2 ↔ a = x ∨ a ∈ l
  | [] => by simp [btreeSetInsert]
  | y :: rest => by
    simp only [btreeSetInsert]
    split
    · simp
    · split
      · rename_i hxy
        subst hxy
        simp
      · simp [mem_btreeSetInsert (l := rest)]
        tauto

theorem btreeSetInsert_fst {x : String} :
    ∀ {l : List String}, List.Sorted (· < ·) l →
      ((btreeSetInsert x l).1 = true ↔ x ∉ l)
  | [], _ => by simp [btreeSetInsert]
  | y :: rest, h => by
    rw [List.sorted_cons] at h
    simp only [btreeSetInsert]
    split
    · rename_i hxy
      simp
      constructor
      · exact fun hy => absurd hxy (by simp [hy])
      · intro hx
        have := h.1 x hx
        exact absurd hxy (lt_asymm this)
    · split
      · rename_i hxy
        subst hxy
        simp

      · rename_i hlt heq
        simp only [btreeSetInsert_fst h.2]
        simp [List.mem_cons]
        tauto

theorem btreeSetInsert_sorted {x : String} :
    ∀ {l : List String}, List.Sorted (· < ·) l →
      List.Sorted (· < ·) (btreeSetInsert x l).2
  | [], _ => by simp [btreeSetInsert]
  | y :: rest, h => by
    rw [List.sorted_cons] at h
    simp only [btreeSetInsert]
    split
    · rename_i hxy
      rw [List.sorted_cons]
      refine ⟨?_, List.sorted_cons.mpr h⟩
      intro b hb
      rcases List.mem_cons.mp hb with hb | hb
      · exact hb ▸ hxy
      · exact lt_trans hxy (h.1 b hb)
    · split
      · exact List.sorted_cons.mpr h
      · rename_i hlt heq
        have hyx : y < x := by
          rcases lt_trichotomy x y with hc | hc | hc
          · exact absurd hc hlt
          · exact absurd hc heq
          · exact hc
        rw [List.sorted_cons]
        refine ⟨?_, btreeSetInsert_sorted h.2⟩
        intro b hb
        rcases mem_btreeSetInsert.mp hb with hb | hb
        · exact hb ▸ hyx
        · exact h.1 b hb

theorem mem_btreeInsert {β : Type} {k : String} {v : β} {kv : String × β} :
    ∀ {m : List (String × β)}, kv ∈ btreeInsert k v m → kv = (k, v) ∨ kv ∈ m
  | [] => by simp [btreeInsert]
  | (k', v') :: rest => by
    simp only [btreeInsert]
    split
    · simp
    · split
      · simp
        tauto
      · intro h
        rcases List.mem_cons.mp h with h | h
        · simp [h]
        · rcases mem_btreeInsert h with h | h
          · exact Or.inl h
          · exact Or.inr (List.mem_cons_of_mem _ h)

theorem btreeInsert_keys_sorted {β : Type} {k : String} {v : β} :
    ∀ {m : List (String × β)}, List.Sorted (· < ·) (m.map Prod.fst) →
      List.Sorted (· < ·) ((btreeInsert k v m).map Prod.fst)
  | [], _ => by simp [btreeInsert]
  | (k', v') :: rest, h => by
    rw [List.map_cons, List.sorted_cons] at h
    simp only [btreeInsert]
    split
    · rename_i hxy
      rw [List.map_cons, List.sorted_cons]
      refine ⟨?_, by rw [List.map_cons, List.sorted_cons]; exact h⟩
      intro b hb
      rw [List.map_cons, List.mem_cons] at hb
      rcases hb with hb | hb
      · exact hb ▸ hxy
      · exact lt_trans hxy (h.1 b hb)
    · split
      · rename_i heq
        subst heq
        rw [List.map_cons, List.sorted_cons]
        exact h
      · rename_i hlt heq
        have hyx : k' < k := by
          rcases lt_trichotomy k k' with hc | hc | hc
          · exact absurd hc hlt
          · exact absurd hc heq
          · exact hc
        rw [List.map_cons, List.sorted_cons]
        refine ⟨?_, btreeInsert_keys_sorted h.2⟩
        intro b hb
        rw [List.mem_map] at hb
        obtain ⟨p, hp, rfl⟩ := hb
        rcases mem_btreeInsert hp with hp | hp
        · exact hp ▸ hyx
        · exact h.1 p.1 (List.mem_map_of_mem Prod.fst hp)

/-! Injectivity of the decimal rendering `Nat.repr`, used both for synthetic
nested-type names and for deduplication suffixes. -/

/-- Reference decimal digit list of a natural number, most significant digit
first. -/
def digitsAux (n : Nat) : List Char :=
  if h : n < 10 then [Nat.digitChar n]
  else digitsAux (n / 10) ++ [Nat.digitChar (n % 10)]
decreasing_by
exact Nat.div_lt_self (by omega) (by omega)

theorem digitsAux_lt {n : Nat} (h : n < 10) : digitsAux n = [Nat.digitChar n] := by
  rw [digitsAux]
  simp [h]

theorem digitsAux_ge {n : Nat} (h : ¬ n < 10) :
    digitsAux n = digitsAux (n / 10) ++ [Nat.digitChar (n % 10)] := by
  rw [digitsAux]
  simp [h]

theorem toDigitsCore_eq_digitsAux (f : Nat) : ∀ n l, 0 < f → n < 10 ^ f →
    Nat.toDigitsCore 10 f n l = digitsAux n ++ l := by
  induction f with
  | zero => intro n l h; exact absurd h (lt_irrefl 0)
  | succ f ih =>
    intro n l hpos hlt
    simp only [Nat.toDigitsCore]
    by_cases h0 : n / 10 = 0
    · have hn : n < 10 := by omega
      rw [digitsAux_lt hn]
      simp [h0, Nat.mod_eq_of_lt hn]
    · have hf : 0 < f := by
        rcases Nat.eq_zero_or_pos f with hz | hp
        · subst hz
          simp at hlt
          omega
        · exact hp
      have hdiv : n / 10 < 10 ^ f := by
        have hmul : n < 10 ^ f * 10 := by
          rw [← pow_succ]
          exact hlt
        exact (Nat.div_lt_iff_lt_mul (by omega)).mpr hmul
      have h10 : ¬ n < 10 := by omega
      rw [if_neg h0, ih (n / 10) (Nat.digitChar (n % 10) :: l) hf hdiv,
        digitsAux_ge h10]
      simp

theorem repr_eq_digitsAux (n : Nat) : Nat.repr n = (digitsAux n).asString := by
  have h1 : n < 10 ^ (n + 1) :=
    lt_of_lt_of_le (Nat.lt_pow_self (by omega) n)
      (Nat.pow_le_pow_right (by omega) (by omega))
  unfold Nat.repr Nat.toDigits
  rw [toDigitsCore_eq_digitsAux (n + 1) n [] (by omega) h1]
  simp

theorem digitChar_inj : ∀ a, a < 10 → ∀ b, b < 10 →
    Nat.digitChar a = Nat.digitChar b → a = b := by decide

theorem digitsAux_ne_nil (n : Nat) : digitsAux n ≠ [] := by
  rw [digitsAux]
  split
  · simp
  · simp

theorem digitsAux_inj (n : Nat) : ∀ m, digitsAux n = digitsAux m → n = m := by
  induction n using Nat.strong_induction_on with
  | _ n ih =>
    intro m h
    by_cases hn : n < 10 <;> by_cases hm : m < 10
    · rw [digitsAux_lt hn, digitsAux_lt hm] at h
      simp at h
      exact digitChar_inj n hn m hm h
    · rw [digitsAux_lt hn, digitsAux_ge hm] at h
      have hlen := congrArg List.length h
      have hp := List.length_pos.mpr (digitsAux_ne_nil (m / 10))
      simp at hlen
      first
      | omega
      | exact absurd hlen (digitsAux_ne_nil _)
    · rw [digitsAux_ge hn, digitsAux_lt hm] at h
      have hlen := congrArg List.length h
      have hp := List.length_pos.mpr (digitsAux_ne_nil (n / 10))
      simp at hlen
      first
      | omega
      | exact absurd hlen (digitsAux_ne_nil _)
    · rw [digitsAux_ge hn, digitsAux_ge hm] at h
      obtain ⟨h1, h2⟩ := List.append_inj' h (by simp)
      simp at h2
      have e1 : n / 10 = m / 10 :=
        ih (n / 10) (Nat.div_lt_self (by omega) (by omega)) (m / 10) h1
      have e2 : n % 10 = m % 10 :=
        digitChar_inj _ (Nat.mod_lt n (by omega)) _ (Nat.mod_lt m (by omega)) h2
      omega

theorem repr_inj {m n : Nat} (h : Nat.repr m = Nat.repr n) : m = n := by
  rw [repr_eq_digitsAux, repr_eq_digitsAux] at h
  apply digitsAux_inj
  have h2 := congrArg String.data h
  simpa [List.asString] using h2

theorem string_append_left_cancel {a b c : String} (h : a ++ b = a ++ c) : b = c := by
  have h2 := congrArg String.data h
  simp [String.data_append] at h2
  exact String.ext h2

theorem append_repr_inj (base : String) {c₁ c₂ : Nat}
    (h : base ++ Nat.repr c₁ = base ++ Nat.repr c₂) : c₁ = c₂ :=
  repr_inj (string_append_left_cancel h)

/-- Pigeonhole: among the first `u.length + 1` candidate suffixes starting at
2, one yields a string outside `u`. -/
theorem exists_free_suffix (base : String) (u : List String) :
    ∃ j, j < u.length + 1 ∧ (base ++ Nat.repr (2 + j)) ∉ u := by
  by_contra hc
  push_neg at hc
  have hinj : Function.Injective (fun j : Nat => base ++ Nat.repr (2 + j)) := by
    intro a b hab
    have := append_repr_inj base hab
    omega
  have hnodup :
      ((List.range (u.length + 1)).map (fun j => base ++ Nat.repr (2 + j))).Nodup :=
    (List.nodup_range _).map hinj
  have hsub :
      ((List.range (u.length + 1)).map (fun j => base ++ Nat.repr (2 + j))) ⊆ u := by
    intro x hx
    rw [List.mem_map] at hx
    obtain ⟨j, hj, rfl⟩ := hx
    exact hc j (List.mem_range.mp hj)
  have hle := (hnodup.subperm hsub).length_le
  simp at hle

/-! Specification of the collision loop. -/

theorem uniquifyAux_snd (base : String) (u : List String) :
    ∀ fuel count, (uniquifyAux base u fuel count).2 =
      (btreeSetInsert (uniquifyAux base u fuel count).1 u).2
  | 0, count => rfl
  | fuel + 1, count => by
    simp only [uniquifyAux]
    split
    · rfl
    · exact uniquifyAux_snd base u fuel (count + 1)

theorem uniquifyAux_not_mem (base : String) (u : List String)
    (hs : List.Sorted (· < ·) u) :
    ∀ fuel count, (∃ j, j < fuel ∧ (base ++ Nat.repr (count + j)) ∉ u) →
      (uniquifyAux base u fuel count).1 ∉ u
  | 0, count, h => by
    obtain ⟨j, hj, _⟩ := h
    omega
  | fuel + 1, count, h => by
    simp only [uniquifyAux]
    split
    · rename_i hp
      exact (btreeSetInsert_fst hs).mp hp
    · rename_i hp
      apply uniquifyAux_not_mem base u hs fuel (count + 1)
      obtain ⟨j, hj, hmem⟩ := h
      cases j with
      | zero =>
        exfalso
        have hin : (base ++ Nat.repr count) ∈ u := by
          by_contra hnin
          exact hp ((btreeSetInsert_fst hs).mpr hnin)
        exact hmem (by simpa using hin)
      | succ j =>
        refine ⟨j, by omega, ?_⟩
        have harith : count + 1 + j = count + (j + 1) := by omega
        rw [harith]
        exact hmem

/-! Invariants of the classification loop. -/

/-- The deduplication step of struct.rs lines 63-80 always assigns a name that
is not yet in the set, and returns the set with exactly that name added. -/
theorem dedup_step (fn : String) (unique : List String)
    (hs : List.Sorted (· < ·) unique) :
    (if (btreeSetInsert fn unique).1 then (fn, (btreeSetInsert fn unique).2)
      else uniquifyAux fn unique (unique.length + 1) 2).1 ∉ unique ∧
    (if (btreeSetInsert fn unique).1 then (fn, (btreeSetInsert fn unique).2)
      else uniquifyAux fn unique (unique.length + 1) 2).2 =
      (btreeSetInsert
        (if (btreeSetInsert fn unique).1 then (fn, (btreeSetInsert fn unique).2)
          else uniquifyAux fn unique (unique.length + 1) 2).1 unique).2 := by
  cases hp : (btreeSetInsert fn unique).1
  · simp only [hp, Bool.false_eq_true, if_false]
    constructor
    · apply uniquifyAux_not_mem fn unique hs
      obtain ⟨j, hj, hfree⟩ := exists_free_suffix fn unique
      exact ⟨j, hj, hfree⟩
    · exact uniquifyAux_snd fn unique (unique.length + 1) 2
  · simp only [hp, if_true]
    constructor
    · exact (btreeSetInsert_fst hs).mp hp
    · trivial

theorem classify_state_spec :
    ∀ (fs : List FieldDef) (fields : List (String × Ty))
      (constants : List (String × ConstantValue)) (unique : List String),
      List.Sorted (· < ·) unique →
      (∀ n, n ∈ fields.map Prod.fst → n ∈ unique) →
      (fields.map Prod.fst).Nodup →
      List.Sorted (· < ·) (Struct.classify fields constants unique fs).2.2 ∧
      (∀ n, n ∈ (Struct.classify fields constants unique fs).1.map Prod.fst →
        n ∈ (Struct.classify fields constants unique fs).2.2) ∧
      ((Struct.classify fields constants unique fs).1.map Prod.fst).Nodup := by
  intro fs
  induction fs with
  | nil =>
    intro fields constants unique hs hmem hnd
    simp only [Struct.classify]
    exact ⟨hs, hmem, hnd⟩
  | cons f rest ih =>
    intro fields constants unique hs hmem hnd
    simp only [Struct.classify]
    split
    · split
      · exact ih fields _ unique hs hmem hnd
      · exact ih fields constants unique hs hmem hnd
    · obtain ⟨hnew, hsnd⟩ := dedup_step (to_snake f.name) unique hs
      apply ih
      · rw [hsnd]
        exact btreeSetInsert_sorted hs
      · intro n hn
        rw [List.map_append] at hn
        rcases List.mem_append.mp hn with hn | hn
        · rw [hsnd]
          exact mem_btreeSetInsert.mpr (Or.inr (hmem n hn))
        · simp at hn
          rw [hsnd, hn]
          exact mem_btreeSetInsert.mpr (Or.inl rfl)
      · rw [List.map_append]
        simp only [List.map_cons, List.map_nil]
        rw [List.nodup_append]
        refine ⟨hnd, List.nodup_singleton _, ?_⟩
        intro a ha hb
        simp at hb
        subst hb
        exact hnew (hmem _ ha)

/-- The delegate workaround of struct.rs lines 58-61: every stored field whose
kind is a delegate reference has pointer depth zero. -/
theorem classify_delegate_pointers :
    ∀ (fs : List FieldDef) (fields : List (String × Ty))
      (constants : List (String × ConstantValue)) (unique : List String),
      (∀ p ∈ fields, ∀ w b, p.2.kind = TypeKind.delegate w b → p.2.pointers = 0) →
      ∀ p ∈ (Struct.classify fields constants unique fs).1, ∀ w b,
        p.2.kind = TypeKind.delegate w b → p.2.pointers = 0 := by
  intro fs
  induction fs with
  | nil =>
    intro fields constants unique hinv
    simpa [Struct.classify] using hinv
  | cons f rest ih =>
    intro fields constants unique hinv
    simp only [Struct.classify]
    split
    · split
      · exact ih fields _ unique hinv
      · exact ih fields constants unique hinv
    · apply ih
      intro p hp w b hk
      rcases List.mem_append.mp hp with hp | hp
      · exact hinv p hp w b hk
      · simp only [List.mem_singleton] at hp
        subst hp
        rcases hfk : f.ftype.kind with _ | ⟨w1, b1⟩ | b1
        · simp [hfk] at hk
        · simp [hfk]
        · simp [hfk] at hk

/-- Literal fields whose constant lookup yields no value leave the loop state
untouched (struct.rs lines 51-54). -/
theorem classify_drop :
    ∀ (fs1 : List FieldDef) (f : FieldDef) (fs2 : List FieldDef)
      (fields : List (String × Ty)) (constants : List (String × ConstantValue))
      (unique : List String), f.literal = true → f.constant = none →
      Struct.classify fields constants unique (fs1 ++ f :: fs2) =
        Struct.classify fields constants unique (fs1 ++ fs2) := by
  intro fs1
  induction fs1 with
  | nil =>
    intro f fs2 fields constants unique hlit hconst
    simp [Struct.classify, hlit, hconst]
  | cons g rest ih =>
    intro f fs2 fields constants unique hlit hconst
    simp only [List.cons_append, Struct.classify]
    split
    · split
      · exact ih f fs2 fields _ unique hlit hconst
      · exact ih f fs2 fields constants unique hlit hconst
    · exact ih f fs2 _ constants _ hlit hconst

/-! Induction principles following the nested-model tree. -/

theorem TypeDef.nested_types_induction (P : TypeDef → Prop)
    (step : ∀ t : TypeDef, (∀ d ∈ t.nested_types, P d) → P t) : ∀ t, P t := fun t =>
  step t (fun d hd => TypeDef.nested_types_induction P step d)
termination_by t => sizeOf t
decreasing_by
have h1 := List.sizeOf_lt_of_mem hd
have h2 := TypeDef.sizeOf_nested_types_lt t
omega

theorem Struct.nested_induction (P : Struct → Prop)
    (step : ∀ s : Struct, (∀ kv ∈ s.nested, P kv.2) → P s) : ∀ s, P s := fun s =>
  step s (fun kv hkv => Struct.nested_induction P step kv.2)
termination_by s => sizeOf s
decreasing_by
have h1 := List.sizeOf_lt_of_mem hkv
have h2 : sizeOf kv.2 < sizeOf kv := by
  rcases kv with ⟨k, v⟩
  simp
have h3 := Struct.sizeOf_nested_lt s
omega

/-- Every emission name in the tree of `s` is strictly longer than `n`. -/
def Struct.namesLongerThan (n : Nat) (s : Struct) : Prop :=
  n < s.name.name.length ∧ ∀ kv ∈ s.nested, Struct.namesLongerThan n kv.2
termination_by sizeOf s
decreasing_by
have h1 := List.sizeOf_lt_of_mem ‹kv ∈ s.nested›
have h2 : sizeOf kv.2 < sizeOf kv := by
  rcases kv with ⟨k, v⟩
  simp
have h3 := Struct.sizeOf_nested_lt s
omega

theorem Struct.namesLongerThan_mono {m n : Nat} (hmn : n ≤ m) :
    ∀ s : Struct, Struct.namesLongerThan m s → Struct.namesLongerThan n s := by
  apply Struct.nested_induction
    (fun s => Struct.namesLongerThan m s → Struct.namesLongerThan n s)
  intro s ih hm
  rw [Struct.namesLongerThan] at hm ⊢
  exact ⟨by omega, fun kv hkv => ih kv hkv (hm.2 kv hkv)⟩

/-- Members of the built nested map come from the nested definitions, with a
synthetic name of the form `parent ++ "_" ++ repr k`. -/
theorem buildNested_mem :
    ∀ (l : List TypeDef) (acc : List (String × Struct)) (parent ns : String)
      (kv : String × Struct), kv ∈ Struct.buildNested parent ns acc l →
      kv ∈ acc ∨ ∃ d ∈ l, ∃ k : Nat,
        kv = (d.name, Struct.from_type_name ⟨d, ns, parent ++ "_" ++ Nat.repr k⟩) := by
  intro l
  induction l with
  | nil =>
    intro acc parent ns kv h
    simp only [Struct.buildNested] at h
    exact Or.inl h
  | cons d rest ih =>
    intro acc parent ns kv h
    simp only [Struct.buildNested] at h
    rcases ih _ parent ns kv h with h | ⟨d1, hd1, k, hk⟩
    · rcases mem_btreeInsert h with h | h
      · exact Or.inr ⟨d, List.mem_cons_self d rest, acc.length, h⟩
      · exact Or.inl h
    · exact Or.inr ⟨d1, List.mem_cons_of_mem d hd1, k, hk⟩

theorem synthetic_name_longer (parent mid : String) (k : Nat) :
    parent.length < (parent ++ "_" ++ Nat.repr k).length := by
  rw [String.length_append, String.length_append]
  have h1 : "_".length = 1 := rfl
  omega

theorem from_type_name_namesLongerThan (t : TypeDef) :
    ∀ (ns nm : String) (n : Nat), n < nm.length →
      Struct.namesLongerThan n (Struct.from_type_name ⟨t, ns, nm⟩) := by
  induction t using TypeDef.nested_types_induction with
  | _ t ih =>
    intro ns nm n hn
    rw [Struct.namesLongerThan]
    constructor
    · simpa using hn
    · intro kv hkv
      rw [Struct.from_type_name_nested] at hkv
      rcases buildNested_mem _ _ _ _ kv hkv with h | ⟨d, hd, k, hk⟩
      · simp at h
      · rw [hk]
        exact ih d hd ns _ n (lt_trans hn (synthetic_name_longer nm "_" k))

theorem genNested_mem : ∀ (l : List (String × Struct)) (d : Decl),
    d ∈ Struct.genNested l → ∃ kv ∈ l, d ∈ Struct.gen kv.2 := by
  intro l
  induction l with
  | nil =>
    intro d hd
    simp [Struct.genNested] at hd
  | cons kv rest ih =>
    intro d hd
    simp only [Struct.genNested] at hd
    rcases List.mem_append.mp hd with hd | hd
    · exact ⟨kv, List.mem_cons_self kv rest, hd⟩
    · obtain ⟨kv2, h1, h2⟩ := ih d hd
      exact ⟨kv2, List.mem_cons_of_mem kv h1, h2⟩

theorem mem_copy {s : Struct} {d : Decl} (h : d ∈ Struct.copy s) :
    d = Decl.copyImpl s.name ∧ (s.fields.all fun f => f.2.kind.is_blittable) = true := by
  unfold Struct.copy at h
  split at h
  · rename_i hc
    exact ⟨by simpa using h, hc⟩
  · simp at h

theorem copy_mem_of_blittable {s : Struct}
    (h : (s.fields.all fun f => f.2.kind.is_blittable) = true) :
    Decl.copyImpl s.name ∈ Struct.copy s := by
  unfold Struct.copy
  rw [if_pos h]
  exact List.mem_singleton.mpr rfl

theorem mem_runtime_type {s : Struct} {d : Decl} (h : d ∈ Struct.runtime_type s) :
    d = Decl.runtimeTypeImpl s.name s.signature := by
  unfold Struct.runtime_type at h
  split at h
  · simp at h
  · simpa using h

theorem gen_owner_long (s : Struct) :
    ∀ n, Struct.namesLongerThan n s → ∀ d ∈ Struct.gen s, n < d.owner.name.length := by
  induction s using Struct.nested_induction with
  | _ s ih =>
    intro n hn d hd
    rw [Struct.namesLongerThan] at hn
    have hnest : ∀ d ∈ Struct.genNested s.nested, n < d.owner.name.length := by
      intro d hd
      obtain ⟨kv, hkv, hdk⟩ := genNested_mem _ _ hd
      exact ih kv hkv n (hn.2 kv hkv) d hdk
    simp only [Struct.gen] at hd
    split at hd
    · simp at hd
      rw [hd]
      exact hn.1
    · split at hd
      · rcases List.mem_cons.mp hd with rfl | hd
        · exact hn.1
        · rcases List.mem_append.mp hd with hd | hd
          · exact hnest d hd
          · rw [(mem_copy hd).1]
            exact hn.1
      · split at hd
        · rcases List.mem_cons.mp hd with rfl | hd
          · exact hn.1
          · rcases List.mem_cons.mp hd with rfl | hd
            · exact hn.1
            · rcases List.mem_append.mp hd with hd | hd
              · exact hnest d hd
              · rw [(mem_copy hd).1]
                exact hn.1
        · rcases List.mem_cons.mp hd with rfl | hd
          · exact hn.1
          · rcases List.mem_cons.mp hd with rfl | hd
            · exact hn.1
            · rcases List.mem_cons.mp hd with rfl | hd
              · exact hn.1
              · rcases List.mem_cons.mp hd with rfl | hd
                · exact hn.1
                · rcases List.mem_cons.mp hd with rfl | hd
                  · exact hn.1
                  · rcases List.mem_cons.mp hd with rfl | hd
                    · exact hn.1
                    · rcases List.mem_cons.mp hd with rfl | hd
                      · exact hn.1
                      · rcases List.mem_cons.mp hd with rfl | hd
                        · exact hn.1
                        · rcases List.mem_append.mp hd with hd | hd
                          · rcases List.mem_append.mp hd with hd | hd
                            · rw [(mem_copy hd).1]
                              exact hn.1
                            · rw [mem_runtime_type hd]
                              exact hn.1
                          · exact hnest d hd

/-- Declarations spliced from nested models never carry the name of the
enclosing built model. -/
theorem gen_nested_owner_ne (tn : TypeName) {d : Decl}
    (hd : d ∈ Struct.genNested (Struct.from_type_name tn).nested) :
    d.owner ≠ tn := by
  obtain ⟨kv, hkv, hdk⟩ := genNested_mem _ _ hd
  have h1 : Struct.namesLongerThan tn.name.length kv.2 := by
    rw [Struct.from_type_name_nested] at hkv
    rcases buildNested_mem _ _ _ _ kv hkv with h | ⟨dd, hdd, k, hk⟩
    · simp at h
    · have := from_type_name_namesLongerThan dd tn.namespc
        (tn.name ++ "_" ++ Nat.repr k) tn.name.length
        (synthetic_name_longer tn.name "_" k)
      rw [hk]
      exact this
  have h2 := gen_owner_long kv.2 tn.name.length h1 d hdk
  intro he
  rw [he] at h2
  omega

/-! Concrete inputs used by witnesses and counterexamples. -/

/-- A plain blittable 1-byte semantic type, as the resolver would produce for
a `u8` field. -/
def tyU8 : Ty :=
  { kind := TypeKind.u8, pointers := 0, array := none, by_ref := false,
    modifiers := [], param := none, name := "", is_const := false,
    is_array := false, is_input := false }

/-- A plain non-literal instance field record of 1-byte kind. -/
def fdU8 (nm : String) : FieldDef :=
  { name := nm, literal := false, constant := none, ftype := tyU8 }

/-! C2: GUID short circuit. -/

/-- C2: for every model whose GUID is present, `gen` emits exactly one named
constant declaration carrying the GUID, and nothing else, regardless of the
fields, constants and nested map of the model (struct.rs lines 136-142). -/
theorem guid_short_circuit (s : Struct) (h : s.guid ≠ TypeGuid.default) :
    Struct.gen s = [Decl.constGuid s.name s.guid] := by
  simp only [Struct.gen]
  rw [if_pos h]

/-- A trivial type definition used to fill handle slots of hand-built
models. -/
def tdPlain (nm : String) : TypeDef :=
  { name := nm, winrt := false, explicit_layout := false, typedefAttr := false,
    struct_signature := "", guid := TypeGuid.default, fields := [],
    nested_types := [] }

/-- A trivial nested child model. -/
def exC2child : Struct :=
  { name := ⟨tdPlain "N", "ns", "N"⟩, fields := [], constants := [],
    signature := "", is_typedef := false, guid := TypeGuid.default,
    nested := [] }

/-- A model with a present GUID and non-empty fields, constants and nested
map. -/
def exC2 : Struct :=
  { name := ⟨tdPlain "X", "ns", "X"⟩, fields := [("a", tyU8)],
    constants := [("C", ⟨"1"⟩)], signature := "sig", is_typedef := false,
    guid := ⟨some "g"⟩, nested := [("n", exC2child)] }

theorem guid_short_circuit_witness :
    (exC2.guid ≠ TypeGuid.default ∧ exC2.fields ≠ [] ∧ exC2.constants ≠ [] ∧
      exC2.nested ≠ []) ∧
    Struct.gen exC2 = [Decl.constGuid exC2.name exC2.guid] :=
  ⟨⟨by simp [exC2, TypeGuid.default], by simp [exC2], by simp [exC2],
      by simp [exC2]⟩,
    guid_short_circuit exC2 (by simp [exC2, TypeGuid.default])⟩

/-! C4: empty-struct padding invariant. -/

/-- C4: when the classified instance-field list of a definition is empty and
its GUID is absent, the built model holds exactly one synthetic field named
`reserved` of 1-byte primitive kind; and a built model is never
simultaneously field-empty and GUID-absent (struct.rs lines 88-104). -/
theorem padding_invariant (tn : TypeName) :
    ((Struct.classify [] [] [] tn.tdef.fields).1 = [] ∧
        tn.tdef.guid = TypeGuid.default →
      (Struct.from_type_name tn).fields.map Prod.fst = ["reserved"] ∧
      (Struct.from_type_name tn).fields.map (fun f => f.2.kind) = [TypeKind.u8]) ∧
    ((Struct.from_type_name tn).fields = [] →
      (Struct.from_type_name tn).guid ≠ TypeGuid.default) := by
  constructor
  · intro ⟨h1, h2⟩
    rw [Struct.from_type_name_fields, if_pos (by simp [h1, h2])]
    rw [h1]
    constructor <;> rfl
  · intro hf
    rw [Struct.from_type_name_guid]
    intro hg
    rw [Struct.from_type_name_fields] at hf
    split at hf
    · exact absurd hf (by simp)
    · rename_i hcond
      rw [hf] at hcond
      simp [hg] at hcond

/-- An empty type definition without a GUID. -/
def tnC4 : TypeName :=
  ⟨{ name := "E", winrt := false, explicit_layout := false,
      typedefAttr := false, struct_signature := "", guid := TypeGuid.default,
      fields := [], nested_types := [] }, "ns", "E"⟩

theorem padding_invariant_witness :
    ((Struct.classify [] [] [] tnC4.tdef.fields).1 = [] ∧
      tnC4.tdef.guid = TypeGuid.default) ∧
    ((Struct.from_type_name tnC4).fields.map Prod.fst = ["reserved"] ∧
      (Struct.from_type_name tnC4).fields.map (fun f => f.2.kind) = [TypeKind.u8]) :=
  ⟨⟨rfl, rfl⟩, (padding_invariant tnC4).1 ⟨rfl, rfl⟩⟩

/-! C5: delegate pointer-depth correction. -/

/-- C5: every field stored in a built model whose semantic kind is a
callback/delegate reference has pointer-indirection depth 0, whatever depth
the external resolver reported (struct.rs lines 58-61). -/
theorem delegate_pointer_correction (tn : TypeName) :
    ∀ p ∈ (Struct.from_type_name tn).fields, ∀ w b,
      p.2.kind = TypeKind.delegate w b → p.2.pointers = 0 := by
  intro p hp w b hk
  rw [Struct.from_type_name_fields] at hp
  have hcl : ∀ p ∈ (Struct.classify [] [] [] tn.tdef.fields).1, ∀ w b,
      p.2.kind = TypeKind.delegate w b → p.2.pointers = 0 :=
    classify_delegate_pointers tn.tdef.fields [] [] [] (by simp)
  split at hp
  · rcases List.mem_append.mp hp with hp | hp
    · exact hcl p hp w b hk
    · simp at hp
      rw [hp] at hk
      exact absurd hk (by simp [tyU8])
  · exact hcl p hp w b hk

/-- The resolver output for the delegate field: a non-WinRT delegate
reference with (defective) pointer depth 3. -/
def tyC5raw : Ty :=
  { kind := TypeKind.delegate false false, pointers := 3, array := none,
    by_ref := false, modifiers := [], param := none, name := "",
    is_const := false, is_array := false, is_input := false }

/-- The delegate field record. -/
def fdC5 : FieldDef :=
  { name := "cb", literal := false, constant := none, ftype := tyC5raw }

/-- A definition with one delegate field for which the resolver reported
pointer depth 3. -/
def tnC5 : TypeName :=
  ⟨{ name := "D", winrt := false, explicit_layout := false,
      typedefAttr := false, struct_signature := "", guid := TypeGuid.default,
      fields := [fdC5], nested_types := [] }, "ns", "D"⟩

/-- The field as stored in the built model: same record with depth forced to
0. -/
def tyC5stored : Ty :=
  { kind := TypeKind.delegate false false, pointers := 0, array := none,
    by_ref := false, modifiers := [], param := none, name := "",
    is_const := false, is_array := false, is_input := false }

theorem delegate_pointer_correction_witness :
    ("cb", tyC5stored) ∈ (Struct.from_type_name tnC5).fields ∧
    tyC5stored.pointers = 0 := by
  have hmem : ("cb", tyC5stored) ∈ (Struct.from_type_name tnC5).fields := by
    rw [Struct.from_type_name_fields]
    decide
  exact ⟨hmem,
    delegate_pointer_correction tnC5 ("cb", tyC5stored) hmem false false rfl⟩

/-! C10: literal fields without a constant are silently dropped. -/

/-- C10: a field flagged literal whose constant lookup yields no value leaves
the built model unchanged: it contributes to neither `fields` (hence neither
the padding decision nor deduplication) nor `constants`, and construction
still succeeds (struct.rs lines 50-54). -/
theorem literal_without_constant_dropped (td : TypeDef) (ns nm : String)
    (f : FieldDef) (fs1 fs2 : List FieldDef)
    (hlit : f.literal = true) (hconst : f.constant = none) :
    (Struct.from_type_name ⟨{ td with fields := fs1 ++ f :: fs2 }, ns, nm⟩).fields =
      (Struct.from_type_name ⟨{ td with fields := fs1 ++ fs2 }, ns, nm⟩).fields ∧
    (Struct.from_type_name ⟨{ td with fields := fs1 ++ f :: fs2 }, ns, nm⟩).constants =
      (Struct.from_type_name ⟨{ td with fields := fs1 ++ fs2 }, ns, nm⟩).constants := by
  have hcl := classify_drop fs1 f fs2 [] [] [] hlit hconst
  constructor
  · rw [Struct.from_type_name_fields, Struct.from_type_name_fields]
    simp only
    rw [hcl]
  · rw [Struct.from_type_name_constants, Struct.from_type_name_constants]
    simp only
    rw [hcl]

/-- A literal field record whose constant lookup produced nothing. -/
def fdC10 : FieldDef :=
  { name := "MISSING", literal := true, constant := none, ftype := tyU8 }

/-- A definition carrying that field between two ordinary fields. -/
def tdC10 : TypeDef :=
  { name := "L", winrt := false, explicit_layout := false,
    typedefAttr := false, struct_signature := "", guid := TypeGuid.default,
    fields := [], nested_types := [] }

theorem literal_without_constant_dropped_witness :
    (fdC10.literal = true ∧ fdC10.constant = none) ∧
    ((Struct.from_type_name ⟨{ tdC10 with
        fields := [fdU8 "a"] ++ fdC10 :: [fdU8 "b"] }, "ns", "L"⟩).fields =
      (Struct.from_type_name ⟨{ tdC10 with
        fields := [fdU8 "a"] ++ [fdU8 "b"] }, "ns", "L"⟩).fields ∧
    (Struct.from_type_name ⟨{ tdC10 with
        fields := [fdU8 "a"] ++ fdC10 :: [fdU8 "b"] }, "ns", "L"⟩).constants =
      (Struct.from_type_name ⟨{ tdC10 with
        fields := [fdU8 "a"] ++ [fdU8 "b"] }, "ns", "L"⟩).constants) :=
  ⟨⟨rfl, rfl⟩,
    literal_without_constant_dropped tdC10 "ns" "L" fdC10 [fdU8 "a"] [fdU8 "b"]
      rfl rfl⟩

/-! C6: field identifier deduplication. -/

/-- A definition with two fields both transliterating to `count`. -/
def tnC6 : TypeName :=
  ⟨{ name := "G", winrt := false, explicit_layout := false,
      typedefAttr := false, struct_signature := "", guid := TypeGuid.default,
      fields := [fdU8 "count", fdU8 "count"], nested_types := [] }, "ns", "G"⟩

/-- C6: field identifiers of a built model are pairwise distinct; on a
collision a numeric suffix starting at 2 is appended until the identifier is
fresh, so the second of two `count` fields is stored as `count2`
(struct.rs lines 63-82). -/
theorem field_identifier_uniqueness :
    (∀ tn : TypeName, ((Struct.from_type_name tn).fields.map Prod.fst).Nodup) ∧
    (Struct.from_type_name tnC6).fields.map Prod.fst = ["count", "count2"] := by
  constructor
  · intro tn
    rw [Struct.from_type_name_fields]
    split
    · rename_i hcond
      simp only [Bool.and_eq_true, List.isEmpty_iff, decide_eq_true_eq] at hcond
      rw [hcond.1]
      simp
    · exact (classify_state_spec tn.tdef.fields [] [] []
        (by simp) (by simp) (by simp)).2.2
  · rw [Struct.from_type_name_fields]
    have h2 : Nat.repr 2 = "2" := by decide
    simp +decide [Struct.classify, btreeSetInsert, uniquifyAux, fdU8, to_snake,
      tnC6, h2, tyU8]

/-! C3: copy-marker gating. -/

/-- C3: for every built model with absent GUID, the `Copy` marker is present
in the emitted output exactly when every field kind is blittable
(struct.rs lines 281-287, spliced into every non-GUID branch). -/
theorem copy_gating (tn : TypeName)
    (hguid : (Struct.from_type_name tn).guid = TypeGuid.default) :
    (Decl.copyImpl tn ∈ Struct.gen (Struct.from_type_name tn) ↔
      ((Struct.from_type_name tn).fields.all fun f => f.2.kind.is_blittable) = true) := by
  constructor
  · intro hmem
    simp only [Struct.gen] at hmem
    rw [if_neg (not_not_intro hguid)] at hmem
    split at hmem
    · rcases List.mem_cons.mp hmem with he | hmem
      · exact absurd he (by simp)
      · rcases List.mem_append.mp hmem with hmem | hmem
        · have h2 := gen_nested_owner_ne tn hmem
          simp [Decl.owner] at h2
        · exact (mem_copy hmem).2
    · split at hmem
      · rcases List.mem_cons.mp hmem with he | hmem
        · exact absurd he (by simp)
        · rcases List.mem_cons.mp hmem with he | hmem
          · exact absurd he (by simp)
          · rcases List.mem_append.mp hmem with hmem | hmem
            · have h2 := gen_nested_owner_ne tn hmem
              simp [Decl.owner] at h2
            · exact (mem_copy hmem).2
      · rcases List.mem_cons.mp hmem with he | hmem
        · exact absurd he (by simp)
        · rcases List.mem_cons.mp hmem with he | hmem
          · exact absurd he (by simp)
          · rcases List.mem_cons.mp hmem with he | hmem
            · exact absurd he (by simp)
            · rcases List.mem_cons.mp hmem with he | hmem
              · exact absurd he (by simp)
              · rcases List.mem_cons.mp hmem with he | hmem
                · exact absurd he (by simp)
                · rcases List.mem_cons.mp hmem with he | hmem
                  · exact absurd he (by simp)
                  · rcases List.mem_cons.mp hmem with he | hmem
                    · exact absurd he (by simp)
                    · rcases List.mem_cons.mp hmem with he | hmem
                      · exact absurd he (by simp)
                      · rcases List.mem_append.mp hmem with hmem | hmem
                        · rcases List.mem_append.mp hmem with hmem | hmem
                          · exact (mem_copy hmem).2
                          · exact absurd (mem_runtime_type hmem) (by simp)
                        · have h2 := gen_nested_owner_ne tn hmem
                          simp [Decl.owner] at h2
  · intro hall
    have hc := copy_mem_of_blittable (s := Struct.from_type_name tn) hall
    rw [Struct.from_type_name_name] at hc
    simp only [Struct.gen]
    rw [if_neg (not_not_intro hguid)]
    split
    · exact List.mem_cons_of_mem _ (List.mem_append.mpr (Or.inr hc))
    · split
      · exact List.mem_cons_of_mem _ (List.mem_cons_of_mem _
          (List.mem_append.mpr (Or.inr hc)))
      · refine List.mem_cons_of_mem _ (List.mem_cons_of_mem _
          (List.mem_cons_of_mem _ (List.mem_cons_of_mem _
          (List.mem_cons_of_mem _ (List.mem_cons_of_mem _
          (List.mem_cons_of_mem _ (List.mem_cons_of_mem _ ?_)))))))
        exact List.mem_append.mpr (Or.inl (List.mem_append.mpr (Or.inl hc)))

theorem copy_gating_witness :
    (Struct.from_type_name tnC4).guid = TypeGuid.default ∧
    (Decl.copyImpl tnC4 ∈ Struct.gen (Struct.from_type_name tnC4) ↔
      ((Struct.from_type_name tnC4).fields.all fun f => f.2.kind.is_blittable) = true) :=
  ⟨by rw [Struct.from_type_name_guid]; rfl,
    copy_gating tnC4 (by rw [Struct.from_type_name_guid]; rfl)⟩

/-! C1: suppression of derived operations for unions. -/

/-- Declarations suppressed in the union branches: default construction,
debug formatting, equality (both impls), and the foreign-call shadow pieces
(the ABI struct and its impl). -/
def Decl.isDerivedOp : Decl → Bool
  | .defaultImpl _ _ => true
  | .debugImpl _ _ _ => true
  | .partialEqImpl _ _ => true
  | .eqImpl _ => true
  | .abiShadow _ _ => true
  | .abiImpl _ => true
  | _ => false

/-- C1 (amended): for a built model with absent GUID, when the model itself
or a directly nested model has explicit layout, `gen` emits no default,
debug, equality or shadow declaration for the enclosing model.  (The copy
marker is not suppressed, and only direct children are consulted; see the
counterexample.) -/
theorem union_suppression_amended (tn : TypeName)
    (hguid : (Struct.from_type_name tn).guid = TypeGuid.default)
    (hexp : tn.tdef.explicit_layout = true ∨
      ((Struct.from_type_name tn).nested.any fun kv =>
        kv.2.name.tdef.explicit_layout) = true) :
    ∀ d ∈ Struct.gen (Struct.from_type_name tn), d.owner = tn →
      d.isDerivedOp = false := by
  intro d hd howner
  simp only [Struct.gen] at hd
  rw [if_neg (not_not_intro hguid)] at hd
  split at hd
  · rcases List.mem_cons.mp hd with rfl | hd
    · rfl
    · rcases List.mem_append.mp hd with hd | hd
      · exact absurd howner (gen_nested_owner_ne tn hd)
      · rw [(mem_copy hd).1]
        rfl
  · split at hd
    · rcases List.mem_cons.mp hd with rfl | hd
      · rfl
      · rcases List.mem_cons.mp hd with rfl | hd
        · rfl
        · rcases List.mem_append.mp hd with hd | hd
          · exact absurd howner (gen_nested_owner_ne tn hd)
          · rw [(mem_copy hd).1]
            rfl
    · exfalso
      rename_i hnexp hnany
      rcases hexp with hexp | hexp
      · rw [Struct.from_type_name_name] at hnexp
        exact hnexp hexp
      · exact hnany hexp

/-- A union definition (explicit layout) with one blittable field and no
GUID. -/
def tdC1union : TypeDef :=
  { name := "U", winrt := false, explicit_layout := true, typedefAttr := false,
    struct_signature := "", guid := TypeGuid.default, fields := [fdU8 "a"],
    nested_types := [] }

def tnC1a : TypeName := ⟨tdC1union, "ns", "U"⟩

/-- Grandchild with explicit layout. -/
def tdC1grand : TypeDef :=
  { name := "_G", winrt := false, explicit_layout := true,
    typedefAttr := false, struct_signature := "", guid := TypeGuid.default,
    fields := [fdU8 "g"], nested_types := [] }

/-- Middle child with implicit layout, holding the explicit grandchild. -/
def tdC1child : TypeDef :=
  { name := "_C", winrt := false, explicit_layout := false,
    typedefAttr := false, struct_signature := "", guid := TypeGuid.default,
    fields := [fdU8 "c"], nested_types := [tdC1grand] }

/-- Enclosing definition with implicit layout whose only explicit descendant
is the grandchild. -/
def tdC1top : TypeDef :=
  { name := "T", winrt := false, explicit_layout := false,
    typedefAttr := false, struct_signature := "", guid := TypeGuid.default,
    fields := [fdU8 "a"], nested_types := [tdC1child] }

def tnC1b : TypeName := ⟨tdC1top, "ns", "T"⟩

/-- C1 as frozen is false on the code, in two ways: a union with blittable
fields still gets the copy marker (first conjunct), and a model whose only
explicit-layout descendant is a grandchild is emitted in the full shape,
default construction included (second conjunct). -/
theorem union_suppression_claim_counterexample :
    ((Struct.from_type_name tnC1a).guid = TypeGuid.default ∧
      tnC1a.tdef.explicit_layout = true ∧
      Decl.copyImpl tnC1a ∈ Struct.gen (Struct.from_type_name tnC1a)) ∧
    ((Struct.from_type_name tnC1b).guid = TypeGuid.default ∧
      tnC1b.tdef.explicit_layout = false ∧
      tdC1top.nested_types = [tdC1child] ∧
      tdC1child.nested_types = [tdC1grand] ∧
      tdC1grand.explicit_layout = true ∧
      Decl.defaultImpl tnC1b
        (DefaultsBody.named (Struct.from_type_name tnC1b).fields) ∈
          Struct.gen (Struct.from_type_name tnC1b)) := by
  have hg1 : (Struct.from_type_name tnC1a).guid = TypeGuid.default := by
    rw [Struct.from_type_name_guid]
    rfl
  have hc : Decl.copyImpl tnC1a ∈ Struct.copy (Struct.from_type_name tnC1a) := by
    have hall : ((Struct.from_type_name tnC1a).fields.all fun f =>
        f.2.kind.is_blittable) = true := by
      rw [Struct.from_type_name_fields]
      decide
    have := copy_mem_of_blittable hall
    rwa [Struct.from_type_name_name] at this
  have hg2 : (Struct.from_type_name tnC1b).guid = TypeGuid.default := by
    rw [Struct.from_type_name_guid]
    rfl
  have hany : ¬ (((Struct.from_type_name tnC1b).nested.any fun kv =>
      kv.2.name.tdef.explicit_layout) = true) := by
    rw [Struct.from_type_name_nested]
    simp [Struct.buildNested, btreeInsert, tnC1b, tdC1top, tdC1child]
  refine ⟨⟨hg1, rfl, ?_⟩, hg2, rfl, rfl, rfl, rfl, ?_⟩
  · simp only [Struct.gen]
    rw [if_neg (not_not_intro hg1)]
    rw [if_pos (by rw [Struct.from_type_name_name]; rfl)]
    exact List.mem_cons_of_mem _ (List.mem_append.mpr (Or.inr hc))
  · simp only [Struct.gen]
    rw [if_neg (not_not_intro hg2)]
    rw [if_neg (by rw [Struct.from_type_name_name]; simp [tnC1b, tdC1top])]
    rw [if_neg hany]
    have htd : (Struct.from_type_name tnC1b).is_typedef = false := by
      rw [Struct.from_type_name_is_typedef]
      rfl
    simp [htd]
    left
    simp [tnC1b, tdC1top]

theorem union_suppression_amended_witness :
    (Decl.copyImpl tnC1a).isDerivedOp = false := by
  have hg : (Struct.from_type_name tnC1a).guid = TypeGuid.default := by
    rw [Struct.from_type_name_guid]
    rfl
  have hmem : Decl.copyImpl tnC1a ∈ Struct.gen (Struct.from_type_name tnC1a) := by
    have hall : ((Struct.from_type_name tnC1a).fields.all fun f =>
        f.2.kind.is_blittable) = true := by
      rw [Struct.from_type_name_fields]
      decide
    have hc := copy_mem_of_blittable hall
    rw [Struct.from_type_name_name] at hc
    simp only [Struct.gen]
    rw [if_neg (not_not_intro hg)]
    rw [if_pos (by rw [Struct.from_type_name_name]; rfl)]
    exact List.mem_cons_of_mem _ (List.mem_append.mpr (Or.inr hc))
  exact union_suppression_amended tnC1a hg (Or.inl rfl)
    (Decl.copyImpl tnC1a) hmem rfl

/-! C8: delegate handling in the full emission shape. -/

theorem compare_fields_get (s : Struct) (i : Nat) (n : String) (t : Ty)
    (hget : s.fields.get? i = some (n, t))
    (hdel : isNonWinrtDelegate t.kind = true) :
    (Struct.compare_fields s).get? i = some (CmpField.addr n) := by
  have hne : s.fields.isEmpty = false := by
    cases hf : s.fields
    · rw [hf] at hget
      simp at hget
    · rfl
  unfold Struct.compare_fields
  rw [if_neg (by simp [hne])]
  rw [List.get?_map, List.get?_enum, hget]
  simp [hdel]

theorem debug_labels_aux (mk : Nat × (String × Ty) → DbgField)
    (hmk : ∀ p, (mk p).label = p.2.1) :
    ∀ (l : List (String × Ty)) (i : Nat),
      (((List.enumFrom i l).filterMap fun p =>
        if isNonWinrtDelegate p.2.2.kind then none
        else some (mk p)).map DbgField.label) =
      ((l.filter fun f => !isNonWinrtDelegate f.2.kind).map Prod.fst) := by
  intro l
  induction l with
  | nil =>
    intro i
    simp
  | cons f rest ih =>
    intro i
    by_cases hk : isNonWinrtDelegate f.2.kind
    · simp [List.enumFrom, List.filter_cons, hk, ih]
    · simp [List.enumFrom, List.filter_cons, hk, ih, hmk]

theorem debug_fields_labels (s : Struct) :
    (Struct.debug_fields s).map DbgField.label =
      ((s.fields.filter fun f => !isNonWinrtDelegate f.2.kind).map Prod.fst) := by
  unfold Struct.debug_fields
  have hfe : (fun p : Nat × (String × Ty) =>
      if isNonWinrtDelegate p.2.2.kind then none
      else if s.is_typedef then some (DbgField.byIndex p.2.1 p.1)
      else some (DbgField.byName p.2.1 p.2.1)) =
    (fun p : Nat × (String × Ty) =>
      if isNonWinrtDelegate p.2.2.kind then none
      else some (if s.is_typedef then DbgField.byIndex p.2.1 p.1
        else DbgField.byName p.2.1 p.2.1)) := by
    funext p
    by_cases hk : isNonWinrtDelegate p.2.2.kind
    · simp [hk]
    · by_cases ht : s.is_typedef <;> simp [hk, ht]
  rw [hfe]
  exact debug_labels_aux _
    (fun p => by by_cases ht : s.is_typedef <;> simp [ht, DbgField.label])
    s.fields 0

/-- C8: in the full emission shape, the equality operation compares every
non-WinRT delegate field by raw function address (through its identifier)
and the formatting operation omits exactly the non-WinRT delegate fields,
listing all others in order (struct.rs lines 197-221 and 232-262). -/
theorem full_shape_delegate_semantics (tn : TypeName)
    (hguid : (Struct.from_type_name tn).guid = TypeGuid.default)
    (hexp : tn.tdef.explicit_layout = false)
    (hany : ((Struct.from_type_name tn).nested.any fun kv =>
      kv.2.name.tdef.explicit_layout) = false) :
    Decl.partialEqImpl tn (Struct.compare_fields (Struct.from_type_name tn)) ∈
        Struct.gen (Struct.from_type_name tn) ∧
    Decl.debugImpl tn tn.name (Struct.debug_fields (Struct.from_type_name tn)) ∈
        Struct.gen (Struct.from_type_name tn) ∧
    (∀ i n t, (Struct.from_type_name tn).fields.get? i = some (n, t) →
      isNonWinrtDelegate t.kind = true →
      (Struct.compare_fields (Struct.from_type_name tn)).get? i =
        some (CmpField.addr n)) ∧
    ((Struct.debug_fields (Struct.from_type_name tn)).map DbgField.label =
      (((Struct.from_type_name tn).fields.filter fun f =>
        !isNonWinrtDelegate f.2.kind).map Prod.fst)) := by
  refine ⟨?_, ?_, fun i n t hget hdel => compare_fields_get _ i n t hget hdel,
    debug_fields_labels _⟩
  all_goals
    simp only [Struct.gen]
    rw [if_neg (not_not_intro hguid)]
    rw [if_neg (by rw [Struct.from_type_name_name]; simp [hexp])]
    rw [if_neg (by rw [hany]; simp)]
    simp

/-- A full-shape definition with a non-WinRT delegate field followed by an
ordinary field. -/
def tnC8 : TypeName :=
  ⟨{ name := "F", winrt := false, explicit_layout := false,
      typedefAttr := false, struct_signature := "", guid := TypeGuid.default,
      fields := [fdC5, fdU8 "a"], nested_types := [] }, "ns", "F"⟩

theorem full_shape_delegate_semantics_witness :
    ((Struct.from_type_name tnC8).fields.get? 0 = some ("cb", tyC5stored)) ∧
    (Struct.compare_fields (Struct.from_type_name tnC8)).get? 0 =
      some (CmpField.addr "cb") := by
  have hguid : (Struct.from_type_name tnC8).guid = TypeGuid.default := by
    rw [Struct.from_type_name_guid]
    rfl
  have hany : ((Struct.from_type_name tnC8).nested.any fun kv =>
      kv.2.name.tdef.explicit_layout) = false := by
    rw [Struct.from_type_name_nested]
    simp [Struct.buildNested, tnC8]
  have hget : (Struct.from_type_name tnC8).fields.get? 0 =
      some ("cb", tyC5stored) := by
    rw [Struct.from_type_name_fields]
    simp +decide [Struct.classify, btreeSetInsert, uniquifyAux, fdC5, fdU8,
      to_snake, tnC8]
  exact ⟨hget,
    (full_shape_delegate_semantics tnC8 hguid rfl hany).2.2.1 0 "cb" tyC5stored
      hget rfl⟩

/-! C7: positional access in the typedef case. -/

/-- A transparent-wrapper (typedef) definition with a single non-WinRT
delegate field. -/
def tnC7 : TypeName :=
  ⟨{ name := "H", winrt := false, explicit_layout := false,
      typedefAttr := true, struct_signature := "", guid := TypeGuid.default,
      fields := [fdC5], nested_types := [] }, "ns", "H"⟩

/-- C7 (code bug): for a typedef model holding a non-WinRT delegate field,
the generated equality body accesses the field through its identifier
(`CmpField.addr "cb"`), not positionally, because the delegate special case
at struct.rs lines 238-243 fires before the typedef check at lines 246-251.
On a positional (tuple) aggregate the emitted accessor is invalid. -/
theorem typedef_delegate_named_access :
    (Struct.from_type_name tnC7).is_typedef = true ∧
    Struct.compare_fields (Struct.from_type_name tnC7) = [CmpField.addr "cb"] ∧
    Decl.partialEqImpl tnC7 (Struct.compare_fields (Struct.from_type_name tnC7)) ∈
      Struct.gen (Struct.from_type_name tnC7) := by
  have hguid : (Struct.from_type_name tnC7).guid = TypeGuid.default := by
    rw [Struct.from_type_name_guid]
    rfl
  have hf : (Struct.from_type_name tnC7).fields = [("cb", tyC5stored)] := by
    rw [Struct.from_type_name_fields]
    decide
  have hany : ¬ (((Struct.from_type_name tnC7).nested.any fun kv =>
      kv.2.name.tdef.explicit_layout) = true) := by
    rw [Struct.from_type_name_nested]
    simp [Struct.buildNested, tnC7]
  refine ⟨by rw [Struct.from_type_name_is_typedef]; rfl, ?_, ?_⟩
  · unfold Struct.compare_fields
    rw [hf, Struct.from_type_name_is_typedef]
    decide
  · simp only [Struct.gen]
    rw [if_neg (not_not_intro hguid)]
    rw [if_neg (by rw [Struct.from_type_name_name]; simp [tnC7])]
    rw [if_neg hany]
    simp

/-! C9: determinism and fixed iteration order. -/

/-- The nested maps of a model tree are key-sorted at every level. -/
def Struct.nested_sorted (s : Struct) : Prop :=
  List.Sorted (· < ·) (s.nested.map Prod.fst) ∧
    ∀ kv ∈ s.nested, Struct.nested_sorted kv.2
termination_by sizeOf s
decreasing_by
have h1 := List.sizeOf_lt_of_mem ‹kv ∈ s.nested›
have h2 : sizeOf kv.2 < sizeOf kv := by
  rcases kv with ⟨k, v⟩
  simp
have h3 := Struct.sizeOf_nested_lt s
omega

theorem buildNested_keys_sorted :
    ∀ (l : List TypeDef) (acc : List (String × Struct)) (parent ns : String),
      List.Sorted (· < ·) (acc.map Prod.fst) →
      List.Sorted (· < ·) ((Struct.buildNested parent ns acc l).map Prod.fst) := by
  intro l
  induction l with
  | nil =>
    intro acc parent ns h
    simpa only [Struct.buildNested] using h
  | cons d rest ih =>
    intro acc parent ns h
    simp only [Struct.buildNested]
    exact ih _ parent ns (btreeInsert_keys_sorted h)

theorem from_type_name_nested_sorted (t : TypeDef) :
    ∀ ns nm, Struct.nested_sorted (Struct.from_type_name ⟨t, ns, nm⟩) := by
  induction t using TypeDef.nested_types_induction with
  | _ t ih =>
    intro ns nm
    rw [Struct.nested_sorted]
    constructor
    · rw [Struct.from_type_name_nested]
      exact buildNested_keys_sorted _ [] _ _ (by simp)
    · intro kv hkv
      rw [Struct.from_type_name_nested] at hkv
      rcases buildNested_mem _ _ _ _ kv hkv with h | ⟨d, hd, k, hk⟩
      · simp at h
      · rw [hk]
        exact ih d hd ns _

/-- C9: model construction and emission are deterministic functions of their
input, the nested map iterates in key-sorted order at every level of every
built model, and the deduplication bookkeeping set is kept sorted. -/
theorem determinism_and_ordering :
    (∀ tn : TypeName, Struct.from_type_name tn = Struct.from_type_name tn) ∧
    (∀ s : Struct, Struct.gen s = Struct.gen s) ∧
    (∀ tn : TypeName, Struct.nested_sorted (Struct.from_type_name tn)) ∧
    (∀ fs : List FieldDef,
      List.Sorted (· < ·) ((Struct.classify [] [] [] fs).2.2)) := by
  refine ⟨fun _ => rfl, fun _ => rfl, ?_, ?_⟩
  · intro tn
    rcases tn with ⟨t, ns, nm⟩
    exact from_type_name_nested_sorted t ns nm
  · intro fs
    exact (classify_state_spec fs [] [] [] (by simp) (by simp) (by simp)).1

end Winmd
